import Mathlib

/-!
Shallow embedding of the PRODES dashboard core (`src/app.py`): the schema
normalizer `load_data`, the visual encoder `create_choropleth_map`, and the
aggregation steps of `main`.  Pandas floating point values are modelled as
rationals, the numpy float-to-int cast (`astype(int)` / `int(...)`) as
truncation toward zero, and pandas NaN / numeric-coercion failure as
`Option.none`.  Pandas `nlargest` and multi-column `sort_values` are stable,
so they are modelled by a stable insertion sort.
-/

/-- Raw cell value of one column of one input record.  Values that
`pd.to_numeric` can coerce (numbers and numeric strings) are `num`; string
values that fail numeric coercion are `str`; missing values (NaN) are
`missing`. -/
inductive RawValue where
  | num (q : ℚ)
  | str (s : String)
  | missing
deriving DecidableEq, Repr

/-- One raw input record: the tabular attributes (a mapping from column name
to value) plus a geometry, abstracted by its centroid latitude `cy` and
longitude `cx`. -/
structure RawRec where
  attrs : List (String × RawValue)
  cy : ℚ
  cx : ℚ
deriving DecidableEq, Repr

/-- The raw geospatial table handed to the loader: its column schema and its
records. -/
structure RawTable where
  cols : List String
  rows : List RawRec
deriving DecidableEq, Repr

/-- Translation of the `column_mapping` dict of `load_data` (src/app.py lines
46-58): recognized source column names are renamed to canonical names, all
other columns keep their name. -/
def renameCol (c : String) : String :=
  if c = "year" then "ano"
  else if c = "area_km" then "area_km2"
  else if c = "state" then "uf"
  else if c = "class_name" then "classe"
  else if c = "main_class" then "classe_principal"
  else if c = "image_date" then "data_imagem"
  else if c = "satellite" then "satelite"
  else if c = "sensor" then "sensor"
  else if c = "path_row" then "path_row"
  else if c = "uuid" then "uuid"
  else if c = "uid" then "uid"
  else c

/-- Column renaming applied to one record (`gdf.rename(columns=...)`). -/
def renameRec (r : RawRec) : RawRec :=
  { r with attrs := r.attrs.map fun p => (renameCol p.1, p.2) }

/-- Value of column `c` in an attribute list; absent columns read as missing. -/
def getVal (attrs : List (String × RawValue)) (c : String) : RawValue :=
  match attrs with
  | [] => RawValue.missing
  | p :: rest => if p.1 = c then p.2 else getVal rest c

/-- Model of `pd.to_numeric(..., errors='coerce')` on one cell: numeric values
survive, everything else becomes missing (`none`). -/
def coerceNum : RawValue → Option ℚ
  | RawValue.num q => some q
  | RawValue.str _ => none
  | RawValue.missing => none

/-- Model of the numpy float-to-int cast (`astype(int)`, `int(...)`): the
rational is truncated toward zero. -/
def truncToInt (q : ℚ) : ℤ :=
  Int.tdiv q.num q.den

/-- One normalized deforestation record.  `ano` (year) is an exact integer,
`area` the polygon area in km², `uf` the state identifier (an optional column
in the source, modelled by `""` when absent), `cy`/`cx` the geometry centroid
coordinates. -/
structure Feature where
  ano : ℤ
  uf : String
  area : ℚ
  cy : ℚ
  cx : ℚ
deriving DecidableEq, Repr

/-- String content of column `c` of a record, `""` when absent or non-string. -/
def strValD (r : RawRec) (c : String) : String :=
  match getVal r.attrs c with
  | RawValue.str s => s
  | _ => ""

/-- The feature built from a (renamed) record whose year coerced to `y` and
whose area coerced to `a`. -/
def mkFeature (r : RawRec) (y : ℤ) (a : ℚ) : Feature :=
  { ano := y, uf := strValD r "uf", area := a, cy := r.cy, cx := r.cx }

/-- Translation of `load_data` (src/app.py lines 46-92): rename the recognized
columns; require the canonical `ano` column, coerce it to numbers, drop
records where coercion fails, and cast it to an integer; require the canonical
`area_km2` column, coerce it to numbers, and keep only records with a positive
area (a NaN area fails the `> 0` comparison and is dropped).  `none` models
the `st.error(...)` + `return None` paths.  The `municipio` proxy column and
the CRS reprojection (lines 81-90) carry no information used by the claims
under verification and are not modelled. -/
def load_data (t : RawTable) : Option (List Feature) :=
  let cols := t.cols.map renameCol
  let recs := t.rows.map renameRec
  if "ano" ∈ cols then
    let recsY := recs.filterMap fun r =>
      (coerceNum (getVal r.attrs "ano")).map fun y => (r, truncToInt y)
    if "area_km2" ∈ cols then
      some (recsY.filterMap fun ry =>
        match coerceNum (getVal ry.1.attrs "area_km2") with
        | some a => if 0 < a then some (mkFeature ry.1 ry.2 a) else none
        | none => none)
    else none
  else none

/-- Row-wise summary of the two coercion passes of `load_data`: a renamed
record yields a feature exactly when both its `ano` and its `area_km2` cells
coerce to numbers and the area is positive. -/
def rowToFeature (r : RawRec) : Option Feature :=
  match coerceNum (getVal r.attrs "ano"), coerceNum (getVal r.attrs "area_km2") with
  | some y, some a => if 0 < a then some (mkFeature r (truncToInt y) a) else none
  | _, _ => none

theorem load_data_eq_filterMap (t : RawTable)
    (hy : "ano" ∈ t.cols.map renameCol) (ha : "area_km2" ∈ t.cols.map renameCol) :
    load_data t = some ((t.rows.map renameRec).filterMap rowToFeature) := by
  unfold load_data
  simp only [hy, ha, if_pos, List.filterMap_filterMap]
  refine congrArg (fun g => some (List.filterMap g (t.rows.map renameRec)))
    (funext fun r => ?_)
  unfold rowToFeature
  cases hcy : coerceNum (getVal r.attrs "ano") with
  | none => simp [hcy]
  | some y =>
      cases hca : coerceNum (getVal r.attrs "area_km2") with
      | none => simp [hcy, hca]
      | some a => simp [hcy, hca]

/-- C4: if, after column reconciliation, no input column maps to the canonical
year attribute `ano` or none maps to the canonical area attribute `area_km2`,
the loader fails (`none`), surfacing the missing-column condition instead of
returning any (partial or defaulted) feature collection. -/
theorem c4_missing_required_column (t : RawTable)
    (h : "ano" ∉ t.cols.map renameCol ∨ "area_km2" ∉ t.cols.map renameCol) :
    load_data t = none := by
  unfold load_data
  rcases h with h | h
  · simp [h]
  · by_cases hy : "ano" ∈ t.cols.map renameCol
    · simp [hy, h]
    · simp [hy]

/-- Test table whose schema has an area column but no column mapping to the
canonical year attribute. -/
def tNoYear : RawTable :=
  { cols := ["area_km", "state"],
    rows := [{ attrs := [("area_km", RawValue.num 2)], cy := 0, cx := 0 }] }

theorem c4_missing_required_column_witness :
    ("ano" ∉ tNoYear.cols.map renameCol ∨ "area_km2" ∉ tNoYear.cols.map renameCol) ∧
      load_data tNoYear = none :=
  ⟨Or.inl (by decide), c4_missing_required_column tNoYear (Or.inl (by decide))⟩

/-- C5: every feature collection accepted by the loader contains only features
with an integer year (`Feature.ano : ℤ`) and a strictly positive area, and it
is exactly the row-wise filter-map of the input records: a record whose year
or area fails numeric coercion contributes nothing to the result (it is
dropped, not defaulted). -/
theorem c5_loader_invariants (t : RawTable) (fc : List Feature)
    (h : load_data t = some fc) :
    (∀ f ∈ fc, 0 < f.area) ∧ fc = (t.rows.map renameRec).filterMap rowToFeature := by
  have hy : "ano" ∈ t.cols.map renameCol := by
    by_contra hy
    rw [c4_missing_required_column t (Or.inl hy)] at h
    exact Option.noConfusion h
  have ha : "area_km2" ∈ t.cols.map renameCol := by
    by_contra ha
    rw [c4_missing_required_column t (Or.inr ha)] at h
    exact Option.noConfusion h
  rw [load_data_eq_filterMap t hy ha] at h
  have hfc : fc = (t.rows.map renameRec).filterMap rowToFeature :=
    (Option.some.injEq _ _).mp h.symm
  refine ⟨fun f hf => ?_, hfc⟩
  rw [hfc] at hf
  rcases List.mem_filterMap.mp hf with ⟨r, _, hr⟩
  unfold rowToFeature at hr
  cases hcy : coerceNum (getVal r.attrs "ano") with
  | none => rw [hcy] at hr; exact Option.noConfusion hr
  | some y =>
      cases hca : coerceNum (getVal r.attrs "area_km2") with
      | none => rw [hcy, hca] at hr; exact Option.noConfusion hr
      | some a =>
          rw [hcy, hca] at hr
          have hr2 : (if 0 < a then some (mkFeature r (truncToInt y) a) else none)
              = some f := hr
          by_cases hpos : 0 < a
          · rw [if_pos hpos] at hr2
            have harea : f.area = a := by
              rw [← (Option.some.injEq _ _).mp hr2]
              rfl
            rw [harea]; exact hpos
          · rw [if_neg hpos] at hr2; exact Option.noConfusion hr2

theorem truncToInt_intCast (z : ℤ) : truncToInt (z : ℚ) = z := by
  unfold truncToInt
  rw [Rat.num_intCast, Rat.den_intCast]
  exact Int.tdiv_one z

theorem truncToInt_ofNat (n : ℕ) : truncToInt (n : ℚ) = n := by
  have : ((n : ℤ) : ℚ) = (n : ℚ) := by push_cast; rfl
  rw [← this, truncToInt_intCast]

/-- Test table with one valid record, one record whose year fails numeric
coercion, and one record with a non-positive area. -/
def tGood : RawTable :=
  { cols := ["year", "area_km", "state"],
    rows :=
      [ { attrs := [("year", RawValue.num 2020), ("area_km", RawValue.num 2),
            ("state", RawValue.str "PA")], cy := 0, cx := 0 },
        { attrs := [("year", RawValue.str "unknown"), ("area_km", RawValue.num 3)],
          cy := 0, cx := 0 },
        { attrs := [("year", RawValue.num 2021), ("area_km", RawValue.num (-1))],
          cy := 0, cx := 0 } ] }

/-- The single feature surviving normalization of `tGood`. -/
def fGood : Feature := { ano := 2020, uf := "PA", area := 2, cy := 0, cx := 0 }

theorem c5_loader_invariants_witness :
    load_data tGood = some [fGood] ∧ (∀ f ∈ [fGood], 0 < f.area) := by
  have h : load_data tGood = some [fGood] := by
    norm_num +decide [load_data, tGood, renameRec, renameCol, getVal, coerceNum,
      mkFeature, strValD, fGood, truncToInt, Rat.num_ofNat, Rat.den_ofNat]
  exact ⟨h, (c5_loader_invariants tGood [fGood] h).1⟩

/-- Stable insertion step: `x` is placed before the first element `y` of the
list with `le x y`.  Together with `isortB` this models the stable sorts of
pandas (`nlargest(..., keep='first')` and multi-column `sort_values`, which
uses a stable lexsort): elements that compare equal keep their original
relative order. -/
def insB {α : Type*} (le : α → α → Bool) (x : α) : List α → List α
  | [] => [x]
  | y :: ys => if le x y then x :: y :: ys else y :: insB le x ys

/-- Stable insertion sort with respect to the boolean comparison `le`. -/
def isortB {α : Type*} (le : α → α → Bool) : List α → List α
  | [] => []
  | x :: xs => insB le x (isortB le xs)

theorem mem_insB {α : Type*} {le : α → α → Bool} {x a : α} {l : List α} :
    a ∈ insB le x l ↔ a = x ∨ a ∈ l := by
  induction l with
  | nil => simp [insB]
  | cons y ys ih =>
      by_cases h : le x y
      · simp only [insB, if_pos h, List.mem_cons]
      · simp only [insB, if_neg h, List.mem_cons, ih]
        tauto

theorem perm_insB {α : Type*} (le : α → α → Bool) (x : α) (l : List α) :
    List.Perm (insB le x l) (x :: l) := by
  induction l with
  | nil => exact List.Perm.refl _
  | cons y ys ih =>
      by_cases h : le x y
      · rw [insB, if_pos h]
      · rw [insB, if_neg h]
        exact (ih.cons y).trans (List.Perm.swap x y ys)

theorem perm_isortB {α : Type*} (le : α → α → Bool) (l : List α) :
    List.Perm (isortB le l) l := by
  induction l with
  | nil => exact List.Perm.refl _
  | cons x xs ih => exact (perm_insB le x (isortB le xs)).trans (ih.cons x)

theorem mem_isortB {α : Type*} {le : α → α → Bool} {a : α} {l : List α} :
    a ∈ isortB le l ↔ a ∈ l :=
  (perm_isortB le l).mem_iff

theorem length_isortB {α : Type*} (le : α → α → Bool) (l : List α) :
    (isortB le l).length = l.length :=
  (perm_isortB le l).length_eq

theorem pairwise_insB {α : Type*} {le : α → α → Bool} {R : α → α → Prop} {x : α}
    {l : List α}
    (hRle : ∀ a b, R a b → le a b = true)
    (htrans : ∀ a b c, le a b = true → le b c = true → le a c = true)
    (hxl : ∀ y ∈ l, (le x y = true → R x y) ∧ (le x y = false → R y x))
    (hl : l.Pairwise R) : (insB le x l).Pairwise R := by
  induction l with
  | nil => simp [insB]
  | cons y ys ih =>
      rcases List.pairwise_cons.mp hl with ⟨hy, hys⟩
      by_cases h : le x y
      · rw [insB, if_pos h]
        refine List.pairwise_cons.mpr ⟨?_, hl⟩
        intro z hz
        rcases List.mem_cons.mp hz with hzy | hz2
        · subst hzy
          exact (hxl z (List.mem_cons_self _ _)).1 h
        · have hleyz : le y z = true := hRle _ _ (hy z hz2)
          have hlexz : le x z = true := htrans _ _ _ h hleyz
          exact (hxl z (List.mem_cons_of_mem _ hz2)).1 hlexz
      · rw [insB, if_neg h]
        have hf : le x y = false := by
          revert h; cases le x y <;> simp
        refine List.pairwise_cons.mpr
          ⟨?_, ih (fun z hz => hxl z (List.mem_cons_of_mem _ hz)) hys⟩
        intro z hz
        rcases mem_insB.mp hz with hzx | hz2
        · subst hzx
          exact (hxl y (List.mem_cons_self _ _)).2 hf
        · exact hy z hz2

theorem pairwise_isortB {α : Type*} {le : α → α → Bool} {R Q : α → α → Prop}
    (hRle : ∀ a b, R a b → le a b = true)
    (htrans : ∀ a b c, le a b = true → le b c = true → le a c = true)
    (hQR : ∀ a b, Q a b → (le a b = true → R a b) ∧ (le a b = false → R b a))
    {l : List α} (h : l.Pairwise Q) : (isortB le l).Pairwise R := by
  induction l with
  | nil => exact List.Pairwise.nil
  | cons x xs ih =>
      rcases List.pairwise_cons.mp h with ⟨hx, hxs⟩
      exact pairwise_insB hRle htrans
        (fun y hy => hQR x y (hx y (mem_isortB.mp hy))) (ih hxs)

theorem pairwise_true {α : Type*} (l : List α) :
    l.Pairwise (fun _ _ => True) := by
  induction l with
  | nil => exact List.Pairwise.nil
  | cons x xs ih => exact List.Pairwise.cons (fun _ _ => trivial) ih

theorem pairwise_isortB_le {α : Type*} {le : α → α → Bool}
    (htot : ∀ a b, le a b = false → le b a = true)
    (htrans : ∀ a b c, le a b = true → le b c = true → le a c = true)
    (l : List α) : (isortB le l).Pairwise (fun a b => le a b = true) :=
  pairwise_isortB (fun _ _ h => h) htrans
    (fun a b _ => ⟨id, fun hf => htot a b hf⟩) (pairwise_true l)

/-- Descending comparison by area: the order used by
`nlargest(10000, 'area_km2')`.  Equal areas compare `true` both ways, so the
stable sort keeps their original order (pandas `keep='first'`). -/
def leArea (f g : Feature) : Bool := decide (g.area ≤ f.area)

/-- Model of `gdf_filtered.nlargest(n, 'area_km2')`: the first `n` rows of the
stable descending sort by area. -/
def nlargest (n : ℕ) (fs : List Feature) : List Feature :=
  (isortB leArea fs).take n

/-- The subset actually encoded (src/app.py lines 104-108): the input when it
has at most 10000 features, otherwise the 10000 largest by area. -/
def sampleOf (fs : List Feature) : List Feature :=
  if 10000 < fs.length then nlargest 10000 fs else fs

/-- Minimum of a list of rationals; `none` on the empty list (pandas
`Series.min()` is NaN on an empty series). -/
def minList : List ℚ → Option ℚ
  | [] => none
  | x :: xs =>
      some (match minList xs with
        | none => x
        | some m => min x m)

/-- Maximum of a list of rationals; `none` on the empty list. -/
def maxList : List ℚ → Option ℚ
  | [] => none
  | x :: xs =>
      some (match maxList xs with
        | none => x
        | some m => max x m)

/-- Arithmetic mean of a list of rationals; `none` on the empty list (pandas
`Series.mean()` is NaN on an empty series). -/
def meanList (l : List ℚ) : Option ℚ :=
  if l.isEmpty then none else some (l.sum / l.length)

/-- One feature together with the visual attributes computed for it by the
encoder: normalized `color_intensity`, extrusion `elevation` and RGBA
`color`. -/
structure EncodedFeature where
  feat : Feature
  color_intensity : ℤ
  elevation : ℤ
  color : ℤ × ℤ × ℤ × ℤ
deriving DecidableEq, Repr

/-- Result of the encoder: the sampling signal (`some` of the original count
exactly when the `st.warning` of line 105 fires), the encoded features, and
the view anchor (mean of the centroid coordinates; `none` models the NaN mean
of an empty subset). -/
structure MapResult where
  sampledFrom : Option ℕ
  features : List EncodedFeature
  anchor : Option (ℚ × ℚ)
deriving DecidableEq, Repr

/-- Translation of `create_choropleth_map` (src/app.py lines 99-133): sample
to the 10000 largest features when over the cap (emitting the sampling
signal), normalize area to `color_intensity` and `elevation` against the
sampled min/max (the `astype(int)` casts truncate), fall back to the fixed
midpoint `(128, 10000)` when `area_max > area_min` fails (uniform areas, or
NaN bounds of an empty subset), derive the RGBA color from the intensity, and
anchor the view at the mean centroid.  The per-area normalization (lines
113-124) is split out as `normalizeIE`: given the areas of the sampled subset
it yields the `(color_intensity, elevation)` pair of a feature with that
area. -/
def normalizeIE (areas : List ℚ) : ℚ → ℤ × ℤ :=
  match minList areas, maxList areas with
  | some area_min, some area_max =>
      if area_min < area_max then fun a =>
        (truncToInt ((a - area_min) / (area_max - area_min) * 255),
         truncToInt ((a - area_min) / (area_max - area_min) * 50000) + 5000)
      else fun _ => (128, 10000)
  | _, _ => fun _ => (128, 10000)

def create_choropleth_map (fs : List Feature) : MapResult :=
  let gdf_sample := sampleOf fs
  let areas := gdf_sample.map Feature.area
  { sampledFrom := if 10000 < fs.length then some fs.length else none
    features := gdf_sample.map fun f =>
      let ie := normalizeIE areas f.area
      { feat := f, color_intensity := ie.1, elevation := ie.2,
        color := (255, truncToInt (255 - (ie.1 : ℚ) * (1 / 2)), 0, 200) }
    anchor :=
      match meanList (gdf_sample.map Feature.cy), meanList (gdf_sample.map Feature.cx) with
      | some la, some lo => some (la, lo)
      | _, _ => none }

/-- The `k`-th largest area of a feature list (claim vocabulary): entry `k-1`
of the areas sorted descending, ties kept in original order. -/
def kthLargestArea (fs : List Feature) (k : ℕ) : Option ℚ :=
  ((isortB leArea fs).map Feature.area)[k - 1]?

theorem minList_le {l : List ℚ} {m x : ℚ} (hm : minList l = some m) (hx : x ∈ l) :
    m ≤ x := by
  induction l generalizing m with
  | nil => cases hx
  | cons y ys ih =>
      rw [minList] at hm
      have hm2 := (Option.some.injEq _ _).mp hm
      cases hys : minList ys with
      | none =>
          rw [hys] at hm2
          have hnil : ys = [] := by
            rcases ys with _ | ⟨z, zs⟩
            · rfl
            · rw [minList] at hys; exact Option.noConfusion hys
          subst hnil
          rcases List.mem_cons.mp hx with hxy | hx2
          · subst hxy; exact le_of_eq hm2.symm
          · cases hx2
      | some m2 =>
          rw [hys] at hm2
          rcases List.mem_cons.mp hx with hxy | hx2
          · subst hxy
            rw [← hm2]
            exact min_le_left _ _
          · rw [← hm2]
            exact le_trans (min_le_right _ _) (ih hys hx2)

theorem le_maxList {l : List ℚ} {M x : ℚ} (hM : maxList l = some M) (hx : x ∈ l) :
    x ≤ M := by
  induction l generalizing M with
  | nil => cases hx
  | cons y ys ih =>
      rw [maxList] at hM
      have hM2 := (Option.some.injEq _ _).mp hM
      cases hys : maxList ys with
      | none =>
          rw [hys] at hM2
          have hnil : ys = [] := by
            rcases ys with _ | ⟨z, zs⟩
            · rfl
            · rw [maxList] at hys; exact Option.noConfusion hys
          subst hnil
          rcases List.mem_cons.mp hx with hxy | hx2
          · subst hxy
            have hM3 : x = M := hM2
            exact le_of_eq hM3
          · cases hx2
      | some M2 =>
          rw [hys] at hM2
          rcases List.mem_cons.mp hx with hxy | hx2
          · subst hxy
            rw [← hM2]
            exact le_max_left _ _
          · rw [← hM2]
            exact le_trans (ih hys hx2) (le_max_right _ _)

theorem minList_eq_of_all_eq {l : List ℚ} {a : ℚ} (hne : l ≠ [])
    (h : ∀ x ∈ l, x = a) : minList l = some a := by
  induction l with
  | nil => exact absurd rfl hne
  | cons y ys ih =>
      have hy : y = a := h y (List.mem_cons_self _ _)
      rw [minList]
      rcases ys with _ | ⟨z, zs⟩
      · rw [minList, hy]
      · have hys : minList (z :: zs) = some a :=
          ih (List.cons_ne_nil _ _) (fun x hx => h x (List.mem_cons_of_mem _ hx))
        rw [hys, hy]
        simp

theorem maxList_eq_of_all_eq {l : List ℚ} {a : ℚ} (hne : l ≠ [])
    (h : ∀ x ∈ l, x = a) : maxList l = some a := by
  induction l with
  | nil => exact absurd rfl hne
  | cons y ys ih =>
      have hy : y = a := h y (List.mem_cons_self _ _)
      rw [maxList]
      rcases ys with _ | ⟨z, zs⟩
      · rw [maxList, hy]
      · have hys : maxList (z :: zs) = some a :=
          ih (List.cons_ne_nil _ _) (fun x hx => h x (List.mem_cons_of_mem _ hx))
        rw [hys, hy]
        simp

theorem minList_isSome {l : List ℚ} (hne : l ≠ []) : ∃ m, minList l = some m := by
  rcases l with _ | ⟨x, xs⟩
  · exact absurd rfl hne
  · rw [minList]
    exact ⟨_, rfl⟩

theorem maxList_isSome {l : List ℚ} (hne : l ≠ []) : ∃ M, maxList l = some M := by
  rcases l with _ | ⟨x, xs⟩
  · exact absurd rfl hne
  · rw [maxList]
    exact ⟨_, rfl⟩

theorem truncToInt_eq_floor {q : ℚ} (h : 0 ≤ q) : truncToInt q = ⌊q⌋ := by
  unfold truncToInt
  rw [Rat.floor_def]
  exact Int.tdiv_eq_ediv (Rat.num_nonneg.mpr h) (Int.natCast_nonneg _)

theorem truncToInt_nonneg {q : ℚ} (h : 0 ≤ q) : 0 ≤ truncToInt q := by
  rw [truncToInt_eq_floor h]
  exact Int.floor_nonneg.mpr h

theorem truncToInt_le {q : ℚ} {n : ℤ} (h0 : 0 ≤ q) (h : q ≤ (n : ℚ)) :
    truncToInt q ≤ n := by
  rw [truncToInt_eq_floor h0]
  calc ⌊q⌋ ≤ ⌊(n : ℚ)⌋ := Int.floor_le_floor h
    _ = n := Int.floor_intCast n

theorem sampleOf_subset {fs : List Feature} {f : Feature} (h : f ∈ sampleOf fs) :
    f ∈ fs := by
  unfold sampleOf nlargest at h
  by_cases hl : 10000 < fs.length
  · rw [if_pos hl] at h
    exact mem_isortB.mp (List.mem_of_mem_take h)
  · rw [if_neg hl] at h
    exact h

theorem sampleOf_ne_nil {fs : List Feature} (h : fs ≠ []) : sampleOf fs ≠ [] := by
  unfold sampleOf nlargest
  by_cases hl : 10000 < fs.length
  · rw [if_pos hl]
    intro hcon
    have hlen := congrArg List.length hcon
    rw [List.length_take, length_isortB, List.length_nil] at hlen
    have h10 : (10000 : ℕ) ⊓ fs.length = 10000 := min_eq_left (le_of_lt hl)
    rw [h10] at hlen
    exact absurd hlen (by norm_num)
  · rw [if_neg hl]
    exact h

theorem sampleOf_length_of_gt {fs : List Feature} (h : 10000 < fs.length) :
    (sampleOf fs).length = 10000 := by
  unfold sampleOf nlargest
  rw [if_pos h, List.length_take, length_isortB]
  exact min_eq_left (le_of_lt h)

theorem sampleOf_of_le {fs : List Feature} (h : ¬ 10000 < fs.length) :
    sampleOf fs = fs := by
  unfold sampleOf
  rw [if_neg h]

theorem normalizeIE_norm {areas : List ℚ} {amin amax : ℚ}
    (hmin : minList areas = some amin) (hmax : maxList areas = some amax)
    (hlt : amin < amax) :
    normalizeIE areas = fun a =>
      (truncToInt ((a - amin) / (amax - amin) * 255),
       truncToInt ((a - amin) / (amax - amin) * 50000) + 5000) := by
  unfold normalizeIE
  rw [hmin, hmax]
  show (if amin < amax then fun a =>
      (truncToInt ((a - amin) / (amax - amin) * 255),
       truncToInt ((a - amin) / (amax - amin) * 50000) + 5000)
    else fun _ => (128, 10000)) = _
  rw [if_pos hlt]

theorem normalizeIE_uniform {areas : List ℚ} {amin amax : ℚ}
    (hmin : minList areas = some amin) (hmax : maxList areas = some amax)
    (hnlt : ¬ amin < amax) :
    normalizeIE areas = fun _ => (128, 10000) := by
  unfold normalizeIE
  rw [hmin, hmax]
  show (if amin < amax then fun a =>
      (truncToInt ((a - amin) / (amax - amin) * 255),
       truncToInt ((a - amin) / (amax - amin) * 50000) + 5000)
    else fun _ => (128, 10000)) = _
  rw [if_neg hnlt]

theorem create_map_features_eq (fs : List Feature) :
    (create_choropleth_map fs).features = (sampleOf fs).map fun f =>
      { feat := f,
        color_intensity := (normalizeIE ((sampleOf fs).map Feature.area) f.area).1,
        elevation := (normalizeIE ((sampleOf fs).map Feature.area) f.area).2,
        color := (255,
          truncToInt (255 -
            ((normalizeIE ((sampleOf fs).map Feature.area) f.area).1 : ℚ) * (1 / 2)),
          0, 200) } :=
  rfl

theorem create_map_sampledFrom (fs : List Feature) :
    (create_choropleth_map fs).sampledFrom =
      if 10000 < fs.length then some fs.length else none :=
  rfl

theorem create_map_nil :
    create_choropleth_map [] =
      { sampledFrom := none, features := [], anchor := none } :=
  rfl

theorem getD_mem {α : Type*} : ∀ {l : List α} {n : ℕ} (d : α),
    n < l.length → l.getD n d ∈ l
  | [], _, _, h => absurd h (by simp)
  | x :: xs, 0, d, _ => List.mem_cons_self _ _
  | x :: xs, n + 1, d, h =>
      List.mem_cons_of_mem _ (getD_mem d (Nat.lt_of_succ_lt_succ h))

/-- Test features with areas 1, 2 and 5 (claims C1, C7, C10). -/
def fB1 : Feature := { ano := 2020, uf := "PA", area := 1, cy := 0, cx := 0 }

def fB2 : Feature := { ano := 2020, uf := "PA", area := 2, cy := 0, cx := 0 }

def fB5 : Feature := { ano := 2020, uf := "AM", area := 5, cy := 0, cx := 0 }

/-- Test features of equal area 7 (claim C8). -/
def f7a : Feature := { ano := 2020, uf := "PA", area := 7, cy := 0, cx := 0 }

def f7b : Feature := { ano := 2021, uf := "AM", area := 7, cy := 0, cx := 0 }

/-- Fallback encoded feature for `List.getD`. -/
def edum : EncodedFeature :=
  { feat := fB1, color_intensity := 0, elevation := 0, color := (0, 0, 0, 0) }

/-- C8: on a non-empty subset in which all areas are equal, the min and max of
the (sampled) areas coincide, the `area_max > area_min` test fails, and every
feature is encoded with the fixed midpoint `color_intensity = 128`,
`elevation = 10000`. -/
theorem c8_uniform_subset (fs : List Feature) (a0 : ℚ) (hne : fs ≠ [])
    (huni : ∀ f ∈ fs, f.area = a0) :
    ∀ ef ∈ (create_choropleth_map fs).features,
      ef.color_intensity = 128 ∧ ef.elevation = 10000 := by
  have hsne : sampleOf fs ≠ [] := sampleOf_ne_nil hne
  have hmapne : (sampleOf fs).map Feature.area ≠ [] := by
    intro hcon
    exact hsne (List.map_eq_nil_iff.mp hcon)
  have hareas : ∀ x ∈ (sampleOf fs).map Feature.area, x = a0 := by
    intro x hx
    rcases List.mem_map.mp hx with ⟨f, hf, rfl⟩
    exact huni f (sampleOf_subset hf)
  have hmin := minList_eq_of_all_eq hmapne hareas
  have hmax := maxList_eq_of_all_eq hmapne hareas
  have hnie := normalizeIE_uniform hmin hmax (lt_irrefl a0)
  intro ef hef
  rw [create_map_features_eq] at hef
  rcases List.mem_map.mp hef with ⟨f, hf, rfl⟩
  rw [hnie]
  exact ⟨rfl, rfl⟩

theorem c8_uniform_subset_witness :
    ((create_choropleth_map [f7a, f7b]).features.getD 0 edum).color_intensity = 128 ∧
    ((create_choropleth_map [f7a, f7b]).features.getD 0 edum).elevation = 10000 := by
  have hlen : 0 < (create_choropleth_map [f7a, f7b]).features.length := by
    rw [create_map_features_eq, List.length_map, sampleOf_of_le (by norm_num)]
    norm_num
  refine c8_uniform_subset [f7a, f7b] 7 (by simp) ?_ _ (getD_mem edum hlen)
  intro f hf
  rcases List.mem_cons.mp hf with rfl | hf2
  · rfl
  · rcases List.mem_cons.mp hf2 with rfl | hf3
    · rfl
    · cases hf3

/-- Outcome of one rendering interaction of `main`: either the
no-data warning (line 257) or a rendered map. -/
inductive RenderOutcome where
  | noData
  | rendered (m : MapResult)
deriving DecidableEq, Repr

/-- Translation of the filter application of `main` (src/app.py lines
247-253).  Python truthiness is modelled faithfully: a year selection of `0`
and an empty state selection are falsy, so the corresponding filter is
skipped. -/
def applyFilters (gdf : List Feature) (ano_selecionado : ℤ)
    (estados_selecionados : List String) : List Feature :=
  let g1 := if ano_selecionado ≠ 0 then
      gdf.filter fun f => decide (f.ano = ano_selecionado)
    else gdf
  if estados_selecionados ≠ [] then
    g1.filter fun f => estados_selecionados.contains f.uf
  else g1

/-- Translation of the map-rendering flow of `main` (src/app.py lines
246-309): the filtered subset is tested for emptiness first (line 256); only a
non-empty subset is handed to `create_choropleth_map`. -/
def mainRender (gdf : List Feature) (ano_selecionado : ℤ)
    (estados_selecionados : List String) : RenderOutcome :=
  let gdf_filtered := applyFilters gdf ano_selecionado estados_selecionados
  if gdf_filtered = [] then RenderOutcome.noData
  else RenderOutcome.rendered (create_choropleth_map gdf_filtered)

/-- C9 (amended): the empty-subset guard lives in the caller, not in the
encoder: `main` renders only subsets that are non-empty after filtering, and
the encoder itself, applied to an empty subset, does not signal any error —
it returns an encoding with no features, no sampling signal and no anchor. -/
theorem c9_empty_subset_handling :
    (∀ (gdf : List Feature) (ano : ℤ) (ufs : List String) (m : MapResult),
        mainRender gdf ano ufs = RenderOutcome.rendered m →
        applyFilters gdf ano ufs ≠ []) ∧
    create_choropleth_map [] =
      { sampledFrom := none, features := [], anchor := none } := by
  refine ⟨?_, create_map_nil⟩
  intro gdf ano ufs m h hcon
  simp only [mainRender] at h
  rw [if_pos hcon] at h
  exact RenderOutcome.noConfusion h

/-- C9 counterexample: invoked on the empty subset, `create_choropleth_map`
does not signal an `EmptyInputError` (the source has no such raise path at
all); it produces an ordinary result with no features and no anchor. -/
theorem c9_counterexample :
    create_choropleth_map [] =
      { sampledFrom := none, features := [], anchor := none } :=
  create_map_nil

theorem c9_empty_subset_handling_witness :
    applyFilters [fB1] 0 [] ≠ [] ∧
    create_choropleth_map [] =
      { sampledFrom := none, features := [], anchor := none } := by
  have hfil : applyFilters [fB1] 0 [] = [fB1] := by
    simp [applyFilters]
  have hren : mainRender [fB1] 0 [] =
      RenderOutcome.rendered (create_choropleth_map [fB1]) := by
    simp only [mainRender, hfil]
    rw [if_neg (List.cons_ne_nil _ _)]
  exact ⟨c9_empty_subset_handling.1 [fB1] 0 [] _ hren,
    c9_empty_subset_handling.2⟩

theorem truncToInt_eval (n : ℤ) {q : ℚ} (h : q = (n : ℚ)) : truncToInt q = n := by
  rw [h, truncToInt_intCast]

theorem truncToInt_zero : truncToInt 0 = 0 :=
  truncToInt_eval 0 (by norm_num)

theorem ratio_bounds {amin amax a : ℚ} (hlt : amin < amax) (h1 : amin ≤ a)
    (h2 : a ≤ amax) :
    0 ≤ (a - amin) / (amax - amin) ∧ (a - amin) / (amax - amin) ≤ 1 := by
  have hd : 0 < amax - amin := sub_pos.mpr hlt
  constructor
  · exact div_nonneg (sub_nonneg.mpr h1) (le_of_lt hd)
  · rw [div_le_one hd]
    exact sub_le_sub_right h2 _

/-- C1 (amended): on a subset within the sampling cap whose areas are not all
equal, each feature is encoded with
`color_intensity = trunc((area - amin) / (amax - amin) * 255)` — the
`astype(int)` cast truncates, it does not round — an integer in `[0, 255]`,
and `elevation = trunc((area - amin) / (amax - amin) * 50000) + 5000`. -/
theorem c1_normalization (fs : List Feature) (amin amax : ℚ)
    (hlen : fs.length ≤ 10000)
    (hmin : minList (fs.map Feature.area) = some amin)
    (hmax : maxList (fs.map Feature.area) = some amax)
    (hlt : amin < amax) :
    ∀ ef ∈ (create_choropleth_map fs).features,
      ef.color_intensity = truncToInt ((ef.feat.area - amin) / (amax - amin) * 255) ∧
      0 ≤ ef.color_intensity ∧ ef.color_intensity ≤ 255 ∧
      ef.elevation = truncToInt ((ef.feat.area - amin) / (amax - amin) * 50000) + 5000 := by
  have hs : sampleOf fs = fs := sampleOf_of_le (not_lt.mpr hlen)
  have hmin2 : minList ((sampleOf fs).map Feature.area) = some amin := by
    rw [hs]; exact hmin
  have hmax2 : maxList ((sampleOf fs).map Feature.area) = some amax := by
    rw [hs]; exact hmax
  have hnie := normalizeIE_norm hmin2 hmax2 hlt
  intro ef hef
  rw [create_map_features_eq] at hef
  rcases List.mem_map.mp hef with ⟨f, hf, rfl⟩
  rw [hnie]
  have hffs : f ∈ fs := by
    rw [← hs]; exact hf
  have ha1 : amin ≤ f.area := minList_le hmin (List.mem_map_of_mem _ hffs)
  have ha2 : f.area ≤ amax := le_maxList hmax (List.mem_map_of_mem _ hffs)
  obtain ⟨hr0, hr1⟩ := ratio_bounds hlt ha1 ha2
  refine ⟨rfl, ?_, ?_, rfl⟩
  · show 0 ≤ truncToInt ((f.area - amin) / (amax - amin) * 255)
    exact truncToInt_nonneg (mul_nonneg hr0 (by norm_num))
  · show truncToInt ((f.area - amin) / (amax - amin) * 255) ≤ 255
    refine truncToInt_le (mul_nonneg hr0 (by norm_num)) ?_
    calc (f.area - amin) / (amax - amin) * 255 ≤ 1 * 255 :=
          mul_le_mul_of_nonneg_right hr1 (by norm_num)
      _ = ((255 : ℤ) : ℚ) := by norm_num

/-- C1 counterexample: on the subset with areas `[1, 2, 5]`, the feature of
area 2 receives `color_intensity = 63` (truncation of 63.75), while the
claimed `round((area - amin) / (amax - amin) * 255)` is 64. -/
theorem c1_counterexample :
    ((create_choropleth_map [fB1, fB2, fB5]).features.getD 1 edum).color_intensity = 63 ∧
    round ((((2 : ℚ) - 1) / (5 - 1)) * 255) = 64 ∧ (63 : ℤ) ≠ 64 := by
  have hs : sampleOf [fB1, fB2, fB5] = [fB1, fB2, fB5] :=
    sampleOf_of_le (by norm_num)
  have hmin : minList ((sampleOf [fB1, fB2, fB5]).map Feature.area) = some 1 := by
    rw [hs]
    show minList [(1 : ℚ), 2, 5] = some 1
    norm_num [minList, min_def]
  have hmax : maxList ((sampleOf [fB1, fB2, fB5]).map Feature.area) = some 5 := by
    rw [hs]
    show maxList [(1 : ℚ), 2, 5] = some 5
    norm_num [maxList, max_def]
  have hnie := normalizeIE_norm hmin hmax (by norm_num : (1 : ℚ) < 5)
  have hfeat := create_map_features_eq [fB1, fB2, fB5]
  rw [hnie] at hfeat
  refine ⟨?_, by norm_num [round_eq], by norm_num⟩
  rw [hfeat, hs]
  show truncToInt (((2 : ℚ) - 1) / (5 - 1) * 255) = 63
  rw [truncToInt_eq_floor (by norm_num)]
  norm_num

theorem c1_normalization_witness :
    ((create_choropleth_map [fB1, fB5]).features.getD 0 edum).color_intensity = 0 ∧
    ((create_choropleth_map [fB1, fB5]).features.getD 0 edum).elevation = 5000 ∧
    ((create_choropleth_map [fB1, fB5]).features.getD 1 edum).color_intensity = 255 ∧
    ((create_choropleth_map [fB1, fB5]).features.getD 1 edum).elevation = 55000 := by
  have hmin : minList ([fB1, fB5].map Feature.area) = some 1 := by
    show minList [(1 : ℚ), 5] = some 1
    norm_num [minList, min_def]
  have hmax : maxList ([fB1, fB5].map Feature.area) = some 5 := by
    show maxList [(1 : ℚ), 5] = some 5
    norm_num [maxList, max_def]
  have hs : sampleOf [fB1, fB5] = [fB1, fB5] := sampleOf_of_le (by norm_num)
  have hlen0 : 0 < (create_choropleth_map [fB1, fB5]).features.length := by
    rw [create_map_features_eq, List.length_map, hs]; norm_num
  have hlen1 : 1 < (create_choropleth_map [fB1, fB5]).features.length := by
    rw [create_map_features_eq, List.length_map, hs]; norm_num
  have h := c1_normalization [fB1, fB5] 1 5 (by norm_num) hmin hmax (by norm_num)
  have h0 := h _ (getD_mem edum hlen0)
  have h1 := h _ (getD_mem edum hlen1)
  have hmin2 : minList ((sampleOf [fB1, fB5]).map Feature.area) = some 1 := by
    rw [hs]; exact hmin
  have hmax2 : maxList ((sampleOf [fB1, fB5]).map Feature.area) = some 5 := by
    rw [hs]; exact hmax
  have hnie := normalizeIE_norm hmin2 hmax2 (by norm_num : (1 : ℚ) < 5)
  have hfeat := create_map_features_eq [fB1, fB5]
  rw [hnie] at hfeat
  refine ⟨h0.1.trans ?_, h0.2.2.2.trans ?_, h1.1.trans ?_, h1.2.2.2.trans ?_⟩
  · rw [hfeat, hs]
    show truncToInt (((1 : ℚ) - 1) / (5 - 1) * 255) = 0
    exact truncToInt_eval 0 (by norm_num)
  · rw [hfeat, hs]
    show truncToInt (((1 : ℚ) - 1) / (5 - 1) * 50000) + 5000 = 5000
    rw [truncToInt_eval 0 (by norm_num)]
    norm_num
  · rw [hfeat, hs]
    show truncToInt (((5 : ℚ) - 1) / (5 - 1) * 255) = 255
    exact truncToInt_eval 255 (by norm_num)
  · rw [hfeat, hs]
    show truncToInt (((5 : ℚ) - 1) / (5 - 1) * 50000) + 5000 = 55000
    rw [truncToInt_eval 50000 (by norm_num)]
    norm_num

theorem minList_eq_none {l : List ℚ} (h : minList l = none) : l = [] := by
  rcases l with _ | ⟨x, xs⟩
  · rfl
  · rw [minList] at h
    exact Option.noConfusion h

theorem maxList_eq_none {l : List ℚ} (h : maxList l = none) : l = [] := by
  rcases l with _ | ⟨x, xs⟩
  · rfl
  · rw [maxList] at h
    exact Option.noConfusion h

/-- C7 (amended): every encoded feature's color is
`(255, trunc(255 - color_intensity * 0.5), 0, 200)` — the red, blue and alpha
channels are the constants 255, 0 and 200, and the green channel is the
`int(...)` truncation (not the rounding) of `255 - intensity * 0.5`. -/
theorem c7_color_channels (fs : List Feature) :
    ∀ ef ∈ (create_choropleth_map fs).features,
      ef.color = (255, truncToInt (255 - (ef.color_intensity : ℚ) * (1 / 2)), 0, 200) := by
  intro ef hef
  rw [create_map_features_eq] at hef
  rcases List.mem_map.mp hef with ⟨f, hf, rfl⟩
  rfl

theorem c7_color_channels_witness :
    ((create_choropleth_map [fB1, fB5]).features.getD 1 edum).color =
      (255,
        truncToInt (255 -
          (((create_choropleth_map [fB1, fB5]).features.getD 1 edum).color_intensity : ℚ) *
            (1 / 2)),
        0, 200) := by
  have hlen : 1 < (create_choropleth_map [fB1, fB5]).features.length := by
    rw [create_map_features_eq, List.length_map, sampleOf_of_le (by norm_num)]
    norm_num
  exact c7_color_channels [fB1, fB5] _ (getD_mem edum hlen)

/-- C7 counterexample: on the subset with areas `[1, 5]` the maximum-area
feature has `color_intensity = 255` and its green channel is
`int(255 - 255 * 0.5) = 127`, while the claimed `round(255 - 255 * 0.5)` is
128. -/
theorem c7_counterexample :
    ((create_choropleth_map [fB1, fB5]).features.getD 1 edum).color_intensity = 255 ∧
    ((create_choropleth_map [fB1, fB5]).features.getD 1 edum).color =
      ((255 : ℤ), (127 : ℤ), (0 : ℤ), (200 : ℤ)) ∧
    round ((255 : ℚ) - 255 * (1 / 2)) = 128 := by
  have hs : sampleOf [fB1, fB5] = [fB1, fB5] := sampleOf_of_le (by norm_num)
  have hmin : minList ((sampleOf [fB1, fB5]).map Feature.area) = some 1 := by
    rw [hs]
    show minList [(1 : ℚ), 5] = some 1
    norm_num [minList, min_def]
  have hmax : maxList ((sampleOf [fB1, fB5]).map Feature.area) = some 5 := by
    rw [hs]
    show maxList [(1 : ℚ), 5] = some 5
    norm_num [maxList, max_def]
  have hnie := normalizeIE_norm hmin hmax (by norm_num : (1 : ℚ) < 5)
  have hfeat := create_map_features_eq [fB1, fB5]
  rw [hnie] at hfeat
  have h255 : truncToInt (((5 : ℚ) - 1) / (5 - 1) * 255) = 255 :=
    truncToInt_eval 255 (by norm_num)
  refine ⟨?_, ?_, by norm_num [round_eq]⟩
  · rw [hfeat, hs]
    exact h255
  · rw [hfeat, hs]
    show (255, truncToInt (255 - ((truncToInt (((5 : ℚ) - 1) / (5 - 1) * 255) : ℤ) : ℚ) *
        (1 / 2)), 0, 200) = ((255 : ℤ), (127 : ℤ), (0 : ℤ), (200 : ℤ))
    rw [h255]
    have h127 : truncToInt ((255 : ℚ) - ((255 : ℤ) : ℚ) * (1 / 2)) = 127 := by
      rw [show (255 : ℚ) - ((255 : ℤ) : ℚ) * (1 / 2) = 255 / 2 by norm_num]
      rw [truncToInt_eq_floor (by norm_num)]
      norm_num
    rw [h127]

/-- C10: every elevation produced by the encoder lies in `[5000, 55000]`; in
the `amax > amin` branch a feature of minimal (sampled) area receives exactly
5000 and one of maximal area exactly 55000; in the uniform branch every
feature receives 10000. -/
theorem c10_elevation_range (fs : List Feature) :
    (∀ ef ∈ (create_choropleth_map fs).features,
        5000 ≤ ef.elevation ∧ ef.elevation ≤ 55000) ∧
    (∀ amin amax : ℚ,
        minList ((sampleOf fs).map Feature.area) = some amin →
        maxList ((sampleOf fs).map Feature.area) = some amax →
        ∀ ef ∈ (create_choropleth_map fs).features,
          (amin < amax →
            (ef.feat.area = amin → ef.elevation = 5000) ∧
            (ef.feat.area = amax → ef.elevation = 55000)) ∧
          (amin = amax → ef.elevation = 10000)) := by
  constructor
  · intro ef hef
    rw [create_map_features_eq] at hef
    rcases List.mem_map.mp hef with ⟨f, hf, rfl⟩
    cases hmin : minList ((sampleOf fs).map Feature.area) with
    | none =>
        rw [List.map_eq_nil_iff.mp (minList_eq_none hmin)] at hf
        cases hf
    | some amin =>
        cases hmax : maxList ((sampleOf fs).map Feature.area) with
        | none =>
            rw [List.map_eq_nil_iff.mp (maxList_eq_none hmax)] at hf
            cases hf
        | some amax =>
            by_cases hlt : amin < amax
            · rw [normalizeIE_norm hmin hmax hlt]
              have ha1 : amin ≤ f.area := minList_le hmin (List.mem_map_of_mem _ hf)
              have ha2 : f.area ≤ amax := le_maxList hmax (List.mem_map_of_mem _ hf)
              obtain ⟨hr0, hr1⟩ := ratio_bounds hlt ha1 ha2
              constructor
              · show 5000 ≤ truncToInt ((f.area - amin) / (amax - amin) * 50000) + 5000
                have hnn := truncToInt_nonneg
                  (mul_nonneg hr0 (by norm_num : (0 : ℚ) ≤ 50000))
                omega
              · show truncToInt ((f.area - amin) / (amax - amin) * 50000) + 5000 ≤ 55000
                have hub : truncToInt ((f.area - amin) / (amax - amin) * 50000) ≤ 50000 := by
                  refine truncToInt_le (mul_nonneg hr0 (by norm_num)) ?_
                  calc (f.area - amin) / (amax - amin) * 50000 ≤ 1 * 50000 :=
                        mul_le_mul_of_nonneg_right hr1 (by norm_num)
                    _ = ((50000 : ℤ) : ℚ) := by norm_num
                omega
            · rw [normalizeIE_uniform hmin hmax hlt]
              exact ⟨by norm_num, by norm_num⟩
  · intro amin amax hmin hmax ef hef
    rw [create_map_features_eq] at hef
    rcases List.mem_map.mp hef with ⟨f, hf, rfl⟩
    constructor
    · intro hlt
      rw [normalizeIE_norm hmin hmax hlt]
      constructor
      · intro harea
        have harea2 : f.area = amin := harea
        show truncToInt ((f.area - amin) / (amax - amin) * 50000) + 5000 = 5000
        rw [harea2, sub_self, zero_div, zero_mul, truncToInt_zero]
        norm_num
      · intro harea
        have harea2 : f.area = amax := harea
        show truncToInt ((f.area - amin) / (amax - amin) * 50000) + 5000 = 55000
        rw [harea2,
          truncToInt_eval 50000 (by
            rw [div_self (ne_of_gt (sub_pos.mpr hlt))]
            norm_num)]
        norm_num
    · intro heq
      rw [normalizeIE_uniform hmin hmax (by simp [heq])]

theorem c10_elevation_range_witness :
    (5000 ≤ ((create_choropleth_map [fB1, fB5]).features.getD 0 edum).elevation ∧
      ((create_choropleth_map [fB1, fB5]).features.getD 0 edum).elevation ≤ 55000) ∧
    ((create_choropleth_map [fB1, fB5]).features.getD 0 edum).elevation = 5000 ∧
    ((create_choropleth_map [fB1, fB5]).features.getD 1 edum).elevation = 55000 := by
  have hs : sampleOf [fB1, fB5] = [fB1, fB5] := sampleOf_of_le (by norm_num)
  have hmin : minList ((sampleOf [fB1, fB5]).map Feature.area) = some 1 := by
    rw [hs]
    show minList [(1 : ℚ), 5] = some 1
    norm_num [minList, min_def]
  have hmax : maxList ((sampleOf [fB1, fB5]).map Feature.area) = some 5 := by
    rw [hs]
    show maxList [(1 : ℚ), 5] = some 5
    norm_num [maxList, max_def]
  have hlen0 : 0 < (create_choropleth_map [fB1, fB5]).features.length := by
    rw [create_map_features_eq, List.length_map, hs]; norm_num
  have hlen1 : 1 < (create_choropleth_map [fB1, fB5]).features.length := by
    rw [create_map_features_eq, List.length_map, hs]; norm_num
  have hb := (c10_elevation_range [fB1, fB5]).1 _ (getD_mem edum hlen0)
  have h2 := (c10_elevation_range [fB1, fB5]).2 1 5 hmin hmax
  have h0 := h2 _ (getD_mem edum hlen0)
  have h1 := h2 _ (getD_mem edum hlen1)
  have hnie := normalizeIE_norm hmin hmax (by norm_num : (1 : ℚ) < 5)
  have hfeat := create_map_features_eq [fB1, fB5]
  rw [hnie] at hfeat
  have ha0 : ((create_choropleth_map [fB1, fB5]).features.getD 0 edum).feat.area = 1 := by
    rw [hfeat, hs]
    rfl
  have ha1 : ((create_choropleth_map [fB1, fB5]).features.getD 1 edum).feat.area = 5 := by
    rw [hfeat, hs]
    rfl
  exact ⟨hb, (h0.1 (by norm_num)).1 ha0, (h1.1 (by norm_num)).2 ha1⟩

theorem leArea_total (a b : Feature) (h : leArea a b = false) : leArea b a = true := by
  unfold leArea at h ⊢
  simp only [decide_eq_false_iff_not] at h
  simp only [decide_eq_true_eq]
  exact le_of_lt (lt_of_not_le h)

theorem leArea_trans (a b c : Feature) (hab : leArea a b = true)
    (hbc : leArea b c = true) : leArea a c = true := by
  unfold leArea at hab hbc ⊢
  simp only [decide_eq_true_eq] at hab hbc ⊢
  exact le_trans hbc hab

/-- C2: over the 10000-feature cap the encoder emits exactly 10000 encoded
features, signals the sampling (with the original count) instead of erroring,
keeps only features of the input, and every retained feature's area is at
least the 10000th-largest area of the original subset. -/
theorem c2_sampling_cap (fs : List Feature) (h : 10000 < fs.length) :
    (create_choropleth_map fs).features.length = 10000 ∧
    (create_choropleth_map fs).sampledFrom = some fs.length ∧
    (∀ ef ∈ (create_choropleth_map fs).features, ef.feat ∈ fs) ∧
    (∃ a, kthLargestArea fs 10000 = some a ∧
        ∀ ef ∈ (create_choropleth_map fs).features, a ≤ ef.feat.area) ∧
    (create_choropleth_map fs).features.map EncodedFeature.feat = nlargest 10000 fs := by
  have hlen : (isortB leArea fs).length = fs.length := length_isortB _ _
  have h9999 : 9999 < ((isortB leArea fs).map Feature.area).length := by
    rw [List.length_map, hlen]
    omega
  have h9999f : 9999 < (isortB leArea fs).length := by
    rw [hlen]; omega
  refine ⟨?_, ?_, ?_, ?_, ?_⟩
  · rw [create_map_features_eq, List.length_map]
    exact sampleOf_length_of_gt h
  · rw [create_map_sampledFrom, if_pos h]
  · intro ef hef
    rw [create_map_features_eq] at hef
    rcases List.mem_map.mp hef with ⟨f, hf, rfl⟩
    exact sampleOf_subset hf
  · refine ⟨((isortB leArea fs).map Feature.area).get ⟨9999, h9999⟩, ?_, ?_⟩
    · unfold kthLargestArea
      rw [show (10000 - 1 : ℕ) = 9999 from rfl]
      rw [List.getElem?_eq_getElem h9999]
      rw [List.get_eq_getElem]
    · intro ef hef
      rw [create_map_features_eq] at hef
      rcases List.mem_map.mp hef with ⟨f, hf, rfl⟩
      have hf2 : f ∈ (isortB leArea fs).take 10000 := by
        unfold sampleOf nlargest at hf
        rw [if_pos h] at hf
        exact hf
      rcases List.mem_iff_getElem.mp hf2 with ⟨i, hi, hgi⟩
      have hi10 : i < 10000 := by
        have := List.length_take 10000 (isortB leArea fs)
        omega
      have hif : i < (isortB leArea fs).length := by
        rw [hlen]; omega
      rw [List.getElem_take] at hgi
      have hpw : (isortB leArea fs).Pairwise (fun a b => leArea a b = true) :=
        pairwise_isortB_le leArea_total leArea_trans fs
      show ((isortB leArea fs).map Feature.area).get ⟨9999, h9999⟩ ≤ f.area
      rw [List.get_eq_getElem, List.getElem_map]
      rw [← hgi]
      rcases Nat.lt_or_ge i 9999 with hlt | hge
      · have hle := List.pairwise_iff_getElem.mp hpw i 9999 hif h9999f hlt
        unfold leArea at hle
        simp only [decide_eq_true_eq] at hle
        exact hle
      · have hieq : i = 9999 := by omega
        subst hieq
        exact le_refl _
  · rw [create_map_features_eq, List.map_map]
    have hcomp : (EncodedFeature.feat ∘ fun f =>
        ({ feat := f,
           color_intensity := (normalizeIE ((sampleOf fs).map Feature.area) f.area).1,
           elevation := (normalizeIE ((sampleOf fs).map Feature.area) f.area).2,
           color := (255, truncToInt (255 -
             ((normalizeIE ((sampleOf fs).map Feature.area) f.area).1 : ℚ) * (1 / 2)),
             0, 200) } : EncodedFeature)) = id := rfl
    rw [hcomp, List.map_id]
    unfold sampleOf
    rw [if_pos h]

theorem c2_sampling_cap_witness :
    10000 < (List.replicate 10001 fB1).length ∧
    (create_choropleth_map (List.replicate 10001 fB1)).features.length = 10000 ∧
    (create_choropleth_map (List.replicate 10001 fB1)).sampledFrom = some 10001 := by
  have hl : 10000 < (List.replicate 10001 fB1).length := by
    rw [List.length_replicate]
    norm_num
  have h := c2_sampling_cap (List.replicate 10001 fB1) hl
  refine ⟨hl, h.1, ?_⟩
  rw [h.2.1, List.length_replicate]

/-- Ascending comparison on years, as used by `groupby('ano')` and
`sort_values('ano')`. -/
def leInt (a b : ℤ) : Bool := decide (a ≤ b)

/-- Translation of the temporal-evolution aggregation (src/app.py lines
404-411): `gdf.groupby('ano')['area_km2'].sum().reset_index().sort_values('ano')`
— one entry per distinct year, in ascending year order, carrying the sum of
the areas of that year's features. -/
def evolucao_temporal (gdf : List Feature) : List (ℤ × ℚ) :=
  (isortB leInt ((gdf.map Feature.ano).dedup)).map fun y =>
    (y, ((gdf.filter fun f => decide (f.ano = y)).map Feature.area).sum)

/-- Translation of the data flow of `main` around chart 5 (src/app.py lines
246-253 and 400-411): the filters build `gdf_filtered`, but the temporal
series is computed from the original `gdf`; the selections are not consulted. -/
def mainTrendSeries (gdf : List Feature) (ano_selecionado : ℤ)
    (estados_selecionados : List String) : List (ℤ × ℚ) :=
  evolucao_temporal gdf

theorem leInt_total (a b : ℤ) (h : leInt a b = false) : leInt b a = true := by
  unfold leInt at h ⊢
  simp only [decide_eq_false_iff_not] at h
  simp only [decide_eq_true_eq]
  omega

theorem leInt_trans (a b c : ℤ) (hab : leInt a b = true) (hbc : leInt b c = true) :
    leInt a c = true := by
  unfold leInt at hab hbc ⊢
  simp only [decide_eq_true_eq] at hab hbc ⊢
  omega

theorem isortB_sorted_nodup {α : Type*} {le : α → α → Bool}
    (htot : ∀ a b, le a b = false → le b a = true)
    (htrans : ∀ a b c, le a b = true → le b c = true → le a c = true)
    {l : List α} (hnd : l.Nodup) :
    (isortB le l).Pairwise fun a b => le a b = true ∧ a ≠ b := by
  have h1 := pairwise_isortB_le htot htrans l
  have h2 : (isortB le l).Nodup := ((perm_isortB le l).symm).nodup hnd
  exact h1.and h2

/-- C3: the trend series of `main` is computed over the entire collection (the
filter selections are ignored), is sorted by strictly ascending year, maps
each year to the sum of that year's areas, covers every year present, and
yields `[(2020, 15), (2021, 3)]` on the three-feature example. -/
theorem c3_trend_by_year (gdf : List Feature) (ano : ℤ) (ufs : List String) :
    mainTrendSeries gdf ano ufs = evolucao_temporal gdf ∧
    (evolucao_temporal gdf).Pairwise (fun p q => p.1 < q.1) ∧
    (∀ p ∈ evolucao_temporal gdf,
        p.2 = ((gdf.filter fun f => decide (f.ano = p.1)).map Feature.area).sum) ∧
    (∀ f ∈ gdf, ∃ p ∈ evolucao_temporal gdf, p.1 = f.ano) ∧
    evolucao_temporal
        [{ ano := 2020, uf := "", area := 10, cy := 0, cx := 0 },
         { ano := 2020, uf := "", area := 5, cy := 0, cx := 0 },
         { ano := 2021, uf := "", area := 3, cy := 0, cx := 0 }] =
      [(2020, 15), (2021, 3)] := by
  refine ⟨rfl, ?_, ?_, ?_, ?_⟩
  · unfold evolucao_temporal
    rw [List.pairwise_map]
    have h := isortB_sorted_nodup leInt_total leInt_trans
      (List.nodup_dedup (gdf.map Feature.ano))
    refine h.imp ?_
    intro a b hab
    unfold leInt at hab
    rcases hab with ⟨hle, hne⟩
    simp only [decide_eq_true_eq] at hle
    exact lt_of_le_of_ne hle hne
  · intro p hp
    unfold evolucao_temporal at hp
    rcases List.mem_map.mp hp with ⟨y, hy, rfl⟩
    rfl
  · intro f hf
    have h1 : f.ano ∈ (gdf.map Feature.ano).dedup :=
      List.mem_dedup.mpr (List.mem_map_of_mem _ hf)
    have h2 : f.ano ∈ isortB leInt ((gdf.map Feature.ano).dedup) :=
      mem_isortB.mpr h1
    exact ⟨_, List.mem_map_of_mem _ h2, rfl⟩
  · show evolucao_temporal _ = _
    unfold evolucao_temporal
    norm_num +decide [List.dedup_cons_of_mem, List.dedup_cons_of_not_mem,
      isortB, insB, leInt, List.filter, List.sum_cons]

/-- One row of the year × state aggregate: a (year, state) group key and its
summed area. -/
structure GroupRow where
  ano : ℤ
  uf : String
  area : ℚ
deriving DecidableEq, Repr

/-- Ascending lexicographic comparison on (year, state) group keys: the order
in which pandas `groupby(['ano', 'uf'])` emits its groups. -/
def leKey (a b : ℤ × String) : Bool :=
  decide (a.1 < b.1 ∨ (a.1 = b.1 ∧ a.2 ≤ b.2))

/-- Translation of
`gdf_para_evolucao.groupby(['ano','uf'])['area_km2'].sum().reset_index()`
(src/app.py lines 480-483): one row per distinct (year, state) pair, keys
sorted ascending (pandas sorts group keys), carrying the summed area of the
group. -/
def groupby_ano_uf (gdf : List Feature) : List GroupRow :=
  (isortB leKey ((gdf.map fun f => (f.ano, f.uf)).dedup)).map fun k =>
    { ano := k.1, uf := k.2,
      area := ((gdf.filter fun f =>
        decide (f.ano = k.1) && decide (f.uf = k.2)).map Feature.area).sum }

/-- Comparison used by `.sort_values(['ano','area_km2'], ascending=[True,
False])` (src/app.py line 484): year ascending, then summed area descending;
equal (year, area) pairs compare `true` both ways, so the stable sort keeps
their group-key order. -/
def leAnoAreaDesc (a b : GroupRow) : Bool :=
  decide (a.ano < b.ano ∨ (a.ano = b.ano ∧ b.area ≤ a.area))

/-- Translation of `evolucao_por_estado` (src/app.py lines 479-485): the
grouped sums, stably sorted by year ascending and area descending. -/
def evolucao_por_estado (gdf : List Feature) : List GroupRow :=
  isortB leAnoAreaDesc (groupby_ano_uf gdf)

theorem leKey_total (a b : ℤ × String) (h : leKey a b = false) : leKey b a = true := by
  unfold leKey at h ⊢
  simp only [decide_eq_false_iff_not] at h
  simp only [decide_eq_true_eq]
  push_neg at h
  rcases h with ⟨h1, h2⟩
  by_cases he : a.1 = b.1
  · exact Or.inr ⟨he.symm, le_of_lt (h2 he)⟩
  · exact Or.inl (lt_of_le_of_ne h1 fun hh => he hh.symm)

theorem leKey_trans (a b c : ℤ × String) (hab : leKey a b = true)
    (hbc : leKey b c = true) : leKey a c = true := by
  unfold leKey at hab hbc ⊢
  simp only [decide_eq_true_eq] at hab hbc ⊢
  rcases hab with h1 | ⟨h2, h3⟩ <;> rcases hbc with h4 | ⟨h5, h6⟩
  · exact Or.inl (lt_trans h1 h4)
  · exact Or.inl (by omega)
  · exact Or.inl (by omega)
  · exact Or.inr ⟨h2.trans h5, le_trans h3 h6⟩

theorem leAnoAreaDesc_total (a b : GroupRow) (h : leAnoAreaDesc a b = false) :
    leAnoAreaDesc b a = true := by
  unfold leAnoAreaDesc at h ⊢
  simp only [decide_eq_false_iff_not] at h
  simp only [decide_eq_true_eq]
  push_neg at h
  rcases h with ⟨h1, h2⟩
  by_cases he : a.ano = b.ano
  · exact Or.inr ⟨he.symm, le_of_lt (h2 he)⟩
  · exact Or.inl (lt_of_le_of_ne h1 fun hh => he hh.symm)

theorem leAnoAreaDesc_trans (a b c : GroupRow) (hab : leAnoAreaDesc a b = true)
    (hbc : leAnoAreaDesc b c = true) : leAnoAreaDesc a c = true := by
  unfold leAnoAreaDesc at hab hbc ⊢
  simp only [decide_eq_true_eq] at hab hbc ⊢
  rcases hab with h1 | ⟨h2, h3⟩ <;> rcases hbc with h4 | ⟨h5, h6⟩
  · exact Or.inl (lt_trans h1 h4)
  · exact Or.inl (by omega)
  · exact Or.inl (by omega)
  · exact Or.inr ⟨h2.trans h5, le_trans h6 h3⟩

/-- C6: the year × state aggregate is ordered by year ascending; within a
year, by summed area descending; and rows with equal year and equal area
appear in ascending state order (the stable sort preserves the ascending
group-key order of `groupby`). -/
theorem c6_year_state_order (gdf : List Feature) :
    (evolucao_por_estado gdf).Pairwise fun a b =>
      a.ano < b.ano ∨
        (a.ano = b.ano ∧ (b.area < a.area ∨ (a.area = b.area ∧ a.uf < b.uf))) := by
  unfold evolucao_por_estado
  refine pairwise_isortB
    (Q := fun a b : GroupRow => a.ano < b.ano ∨ (a.ano = b.ano ∧ a.uf < b.uf))
    ?_ leAnoAreaDesc_trans ?_ ?_
  · intro a b hr
    unfold leAnoAreaDesc
    simp only [decide_eq_true_eq]
    rcases hr with h1 | ⟨h2, h3 | ⟨h4, h5⟩⟩
    · exact Or.inl h1
    · exact Or.inr ⟨h2, le_of_lt h3⟩
    · exact Or.inr ⟨h2, le_of_eq h4.symm⟩
  · intro a b hq
    constructor
    · intro hle
      unfold leAnoAreaDesc at hle
      simp only [decide_eq_true_eq] at hle
      rcases hq with h1 | ⟨h2, h3⟩
      · exact Or.inl h1
      · rcases hle with h4 | ⟨h5, h6⟩
        · exact Or.inl h4
        · rcases lt_or_eq_of_le h6 with h7 | h7
          · exact Or.inr ⟨h2, Or.inl h7⟩
          · exact Or.inr ⟨h2, Or.inr ⟨h7.symm, h3⟩⟩
    · intro hle
      unfold leAnoAreaDesc at hle
      simp only [decide_eq_false_iff_not] at hle
      push_neg at hle
      rcases hle with ⟨h1, h2⟩
      rcases hq with h3 | ⟨h4, h5⟩
      · exact absurd h3 (not_lt.mpr h1)
      · exact Or.inr ⟨h4.symm, Or.inl (h2 h4)⟩
  · unfold groupby_ano_uf
    rw [List.pairwise_map]
    have h := isortB_sorted_nodup leKey_total leKey_trans
      (List.nodup_dedup ((gdf.map fun f => (f.ano, f.uf))))
    refine h.imp ?_
    intro k1 k2 hk
    rcases hk with ⟨hle, hne⟩
    unfold leKey at hle
    simp only [decide_eq_true_eq] at hle
    show k1.1 < k2.1 ∨ (k1.1 = k2.1 ∧ k1.2 < k2.2)
    rcases hle with h1 | ⟨h2, h3⟩
    · exact Or.inl h1
    · refine Or.inr ⟨h2, lt_of_le_of_ne h3 ?_⟩
      intro huf
      exact hne (Prod.ext h2 huf)
